import Mathlib

/-!
# Verification of `rust_grep` (src/src/lib.rs)

A shallow embedding of the library half of the `rust_grep` crate.
Strings are modelled as `List Char`; the Rust iterator `env::Args` is a
`List (List Char)`; the result of `std::env::var` is a small inductive
mirroring `Result<String, VarError>`; `Result` becomes `Except` and the
file-reading side effect of `run` becomes an explicit `readToString`
function passed in as a parameter.
-/

namespace RustGrep

/-- Outcome of `std::env::var("CASE_INSENSITIVE")`: `ok v` is `Ok(v)`,
`notPresent` is `Err(VarError::NotPresent)` and `notUnicode` is
`Err(VarError::NotUnicode(_))`. -/
inductive EnvVarResult : Type
  | ok (v : List Char)
  | notPresent
  | notUnicode
deriving DecidableEq, Repr

/-- `Result::is_err` applied to the modelled `env::var` outcome
(`env::var("CASE_INSENSITIVE").is_err()` in `Config::new`). -/
def EnvVarResult.isErr : EnvVarResult → Bool
  | .ok _ => false
  | .notPresent => true
  | .notUnicode => true

/-- The two `&'static str` errors `Config::new` can return. -/
inductive ConfigError : Type
  | MissingQuery
  | MissingFilename
deriving DecidableEq, Repr

/-- The `Config` struct of src/src/lib.rs. -/
structure Config : Type where
  query : List Char
  filename : List Char
  case_insensitive : Bool
deriving DecidableEq, Repr

/-- `Config::new` from src/src/lib.rs.  `args` is the full argument
sequence as handed to the process (`env::Args`), including the program
name in position 0; the code first calls `args.next()` to discard it,
then takes the query (else `Err("Did not get a query string.")`), then
the filename (else `Err("Did not get a filename.")`), and finally sets
`case_insensitive := env::var("CASE_INSENSITIVE").is_err()`.  All
iterator steps are modelled by pattern matching on the list, so the
function is total: no input panics. -/
def Config.new (args : List (List Char)) (env : EnvVarResult) :
    Except ConfigError Config :=
  match args.drop 1 with
  | [] => .error .MissingQuery
  | query :: rest =>
    match rest with
    | [] => .error .MissingFilename
    | filename :: _ =>
      .ok { query := query, filename := filename,
            case_insensitive := env.isErr }

/-- `str::lines` from the Rust standard library, as used by `search` and
`search_case_insensitive`: content is split at `\n` boundaries, a
`\r` immediately before a `\n` is removed together with it (so `\r\n`
is a single break), a lone `\r` is ordinary text, and the segment after
a final `\n` is produced only if it is nonempty (a trailing terminator
yields no extra empty line). -/
def rustLines : List Char → List (List Char)
  | [] => []
  | '\r' :: '\n' :: rest => [] :: rustLines rest
  | '\n' :: rest => [] :: rustLines rest
  | c :: rest =>
    match rustLines rest with
    | [] => [[c]]
    | l :: ls => (c :: l) :: ls

/-- `str::starts_with` for our char-list strings: does `hay` start
with `pre`? -/
def startsWithStr : List Char → List Char → Bool
  | _, [] => true
  | [], _ :: _ => false
  | c :: hay, p :: pre => c = p && startsWithStr hay pre

/-- `str::contains` for our char-list strings: does `hay` contain
`needle` as a contiguous substring? -/
def containsStr : List Char → List Char → Bool
  | [], needle => needle.isEmpty
  | c :: hay, needle => startsWithStr (c :: hay) needle || containsStr hay needle

/-- `char::to_lowercase` from the Rust standard library: the
context-free per-character Unicode lowercase mapping, which may expand
one character to several.  The Unicode table is embedded on the
fragment of characters this development reaches: ASCII capitals and the
Greek capital block (U+0391..U+03AB minus the unassigned U+03A2) map
down by 0x20 exactly as in the table, `'İ'` (U+0130, the single
one-to-many lowercase mapping of the table) expands to `"i̇"` (U+0069
U+0307), and every other character maps to itself.  Note the
string-level `toLowercase` below intercepts `'Σ'` before this function
is consulted, exactly as Rust's `str::to_lowercase` does. -/
def charToLower (c : Char) : List Char :=
  if 'A' ≤ c ∧ c ≤ 'Z' then [Char.ofNat (c.toNat + 0x20)]
  else if 0x391 ≤ c.toNat ∧ c.toNat ≤ 0x3AB ∧ c.toNat ≠ 0x3A2 then
    [Char.ofNat (c.toNat + 0x20)]
  else if c.toNat = 0x130 then [Char.ofNat 0x69, Char.ofNat 0x307]
  else [c]

/-- The Unicode `Cased` property, embedded on the fragment of
characters this development reaches: ASCII letters and Greek letters. -/
def isCased (c : Char) : Bool :=
  ('A' ≤ c ∧ c ≤ 'Z') ∨ ('a' ≤ c ∧ c ≤ 'z')
  ∨ (0x391 ≤ c.toNat ∧ c.toNat ≤ 0x3AB ∧ c.toNat ≠ 0x3A2)
  ∨ (0x3B1 ≤ c.toNat ∧ c.toNat ≤ 0x3CB)

/-- The Unicode `Case_Ignorable` property, embedded on the reached
fragment: the apostrophe U+0027 and the combining dot above U+0307. -/
def isCaseIgnorable (c : Char) : Bool :=
  c.toNat = 0x27 ∨ c.toNat = 0x307

/-- `case_ignorable_then_cased` from Rust's `str::to_lowercase`: skip
case-ignorable characters; the next character, if any, must be cased.
Applied to the reversed preceding text and to the following text, this
is Unicode's `Final_Sigma` context condition. -/
def caseIgnorableThenCased (cs : List Char) : Bool :=
  match cs.dropWhile isCaseIgnorable with
  | [] => false
  | c :: _ => isCased c

/-- Worker for `toLowercase`; `prevRev` holds the already-scanned
characters in reverse, mirroring `self[..i].chars().rev()` in Rust's
`map_uppercase_sigma`. -/
def toLowercaseAux : List Char → List Char → List Char
  | _, [] => []
  | prevRev, c :: rest =>
    if c = 'Σ' then
      (if caseIgnorableThenCased prevRev && !(caseIgnorableThenCased rest)
       then 'ς' else 'σ') :: toLowercaseAux (c :: prevRev) rest
    else
      charToLower c ++ toLowercaseAux (c :: prevRev) rest

/-- `str::to_lowercase` from the Rust standard library: each character
is lowercased by the context-free `charToLower`, except the capital
sigma `'Σ'`, which Rust special-cases with the `Final_Sigma` condition:
it becomes the final form `'ς'` when preceded (skipping case-ignorable
characters) by a cased character and not followed (again skipping
case-ignorable characters) by one, and the ordinary `'σ'` otherwise. -/
def toLowercase (s : List Char) : List Char := toLowercaseAux [] s

/-- `search` from src/src/lib.rs: enumerate the lines of `contents`
and keep the `(index, line)` pairs whose line contains `query`. -/
def search (query contents : List Char) : List (Nat × List Char) :=
  ((rustLines contents).enum).filter fun p => containsStr p.2 query

/-- `search_case_insensitive` from src/src/lib.rs: same shape, but the
containment check lowercases both the line and the query; the pair
keeps the original line text. -/
def search_case_insensitive (query contents : List Char) :
    List (Nat × List Char) :=
  ((rustLines contents).enum).filter fun p =>
    containsStr (toLowercase p.2) (toLowercase query)

/-- `run` from src/src/lib.rs, with the `fs::read_to_string` side
effect abstracted into `readToString` (`none` models a read error,
which `run` propagates) and the printed result sequence returned
instead of written to stdout.  The selection is exactly the code's:
`if config.case_insensitive { search(..) } else
{ search_case_insensitive(..) }`. -/
def run (readToString : List Char → Option (List Char)) (config : Config) :
    Option (List (Nat × List Char)) :=
  match readToString config.filename with
  | none => none
  | some contents =>
    some (if config.case_insensitive then
            search config.query contents
          else
            search_case_insensitive config.query contents)

/-! ## Helper lemmas -/

/-- Reduction of `rustLines` on a cons cell that is not the start of a
line terminator. -/
theorem rustLines_cons_ne (c : Char) (rest : List Char)
    (h1 : ∀ rest1, c = '\r' → rest = '\n' :: rest1 → False)
    (h2 : c ≠ '\n') :
    rustLines (c :: rest) =
      match rustLines rest with
      | [] => [[c]]
      | l :: ls => (c :: l) :: ls := by
  rw [rustLines.eq_def]
  split
  · simp_all
  · rename_i rest1 heq
    obtain ⟨hc, hr⟩ := List.cons.inj heq
    exact absurd hr (fun hx => h1 rest1 hc hx)
  · rename_i rest' heq
    obtain ⟨hc, -⟩ := List.cons.inj heq
    exact absurd hc h2
  · rename_i c' rest' hx1 hx2 heq
    obtain ⟨hc, hr⟩ := List.cons.inj heq
    subst hc
    subst hr
    rfl

/-- Nonempty content yields at least one line. -/
theorem rustLines_ne_nil (s : List Char) (h : s ≠ []) : rustLines s ≠ [] := by
  induction s using rustLines.induct with
  | case1 => exact absurd rfl h
  | case2 rest ih => simp [rustLines]
  | case3 rest ih => simp [rustLines]
  | case4 c rest h1 h2 hnil ih =>
    rw [rustLines_cons_ne c rest h1 h2, hnil]
    simp
  | case5 c rest h1 h2 l ls hcons ih =>
    rw [rustLines_cons_ne c rest h1 h2, hcons]
    simp

/-- When the content ends in a newline, the number of lines is exactly
the number of `'\n'` characters: the trailing terminator produces no
extra empty line. -/
theorem rustLines_length_of_last_nl (s : List Char) (h : s.getLast? = some '\n') :
    (rustLines s).length = s.count '\n' := by
  induction s using rustLines.induct with
  | case1 => simp at h
  | case2 rest ih =>
    rcases rest with _ | ⟨r, rest'⟩
    · decide
    · have hl : (r :: rest').getLast? = some '\n' := by
        rwa [List.getLast?_cons_cons, List.getLast?_cons_cons] at h
      have hc := ih hl
      simp [rustLines, List.count_cons, hc]
  | case3 rest ih =>
    rcases rest with _ | ⟨r, rest'⟩
    · decide
    · have hl : (r :: rest').getLast? = some '\n' := by
        rwa [List.getLast?_cons_cons] at h
      have hc := ih hl
      simp [rustLines, List.count_cons, hc]
  | case4 c rest h1 h2 hnil ih =>
    rcases rest with _ | ⟨r, rest'⟩
    · simp at h
      exact absurd h h2
    · exact absurd hnil (rustLines_ne_nil (r :: rest') (by simp))
  | case5 c rest h1 h2 l ls hcons ih =>
    rcases rest with _ | ⟨r, rest'⟩
    · simp at h
      exact absurd h h2
    · have hl : (r :: rest').getLast? = some '\n' := by
        rwa [List.getLast?_cons_cons] at h
      have hc := ih hl
      rw [hcons] at hc
      rw [rustLines_cons_ne c _ h1 h2, hcons]
      have hb : (c == '\n') = false := by
        simpa using h2
      simp [List.count_cons, hb, ← hc]

/-- A carriage-return-plus-newline pair is a single line break: the text
before it (free of `'\n'`) becomes one line, with the `'\r'` stripped. -/
theorem rustLines_crlf (a b : List Char) (h : '\n' ∉ a) :
    rustLines (a ++ '\r' :: '\n' :: b) = a :: rustLines b := by
  induction a with
  | nil => simp [rustLines]
  | cons c a' ih =>
    have hc : c ≠ '\n' := fun hc => h (hc ▸ List.mem_cons_self c a')
    have h' : '\n' ∉ a' := fun hm => h (List.mem_cons_of_mem c hm)
    have h1 : ∀ rest1, c = '\r' → a' ++ '\r' :: '\n' :: b = '\n' :: rest1 → False := by
      intro rest1 hcr heq
      rcases a' with _ | ⟨x, a''⟩
      · simp only [List.nil_append] at heq
        exact absurd (List.cons.inj heq).1 (by decide)
      · have hx : x = '\n' := by
          have hh := congrArg List.head? heq
          simpa using hh
        exact h' (hx ▸ List.mem_cons_self x a'')
    rw [List.cons_append, rustLines_cons_ne c _ h1 hc, ih h']

/-- The empty needle is contained in every haystack. -/
theorem containsStr_nil (hay : List Char) : containsStr hay [] = true := by
  cases hay <;> rfl

/-- `startsWithStr` means the haystack is the needle followed by some
tail. -/
theorem startsWithStr_iff (hay pre : List Char) :
    startsWithStr hay pre = true ↔ ∃ b, hay = pre ++ b := by
  induction pre generalizing hay with
  | nil =>
    refine ⟨fun _ => ⟨hay, rfl⟩, fun _ => ?_⟩
    cases hay <;> rfl
  | cons p pre ih =>
    cases hay with
    | nil =>
      simp [startsWithStr]
    | cons c hay =>
      simp only [startsWithStr, Bool.and_eq_true, decide_eq_true_eq, ih,
        List.cons_append, List.cons.injEq]
      constructor
      · rintro ⟨rfl, b, rfl⟩
        exact ⟨b, rfl, rfl⟩
      · rintro ⟨b, rfl, rfl⟩
        exact ⟨rfl, b, rfl⟩

/-- `containsStr` means the haystack decomposes around the needle. -/
theorem containsStr_iff (hay needle : List Char) :
    containsStr hay needle = true ↔ ∃ a b, hay = a ++ needle ++ b := by
  induction hay with
  | nil =>
    simp only [containsStr, List.isEmpty_iff]
    constructor
    · rintro rfl
      exact ⟨[], [], rfl⟩
    · rintro ⟨a, b, h⟩
      have h1 := List.append_eq_nil.mp h.symm
      exact ((List.append_eq_nil.mp h1.1).2).symm ▸ rfl
  | cons c hay ih =>
    simp only [containsStr, Bool.or_eq_true, ih, startsWithStr_iff]
    constructor
    · rintro (⟨b, hb⟩ | ⟨a, b, hab⟩)
      · exact ⟨[], b, by simpa using hb⟩
      · exact ⟨c :: a, b, by simp [hab]⟩
    · rintro ⟨a, b, hab⟩
      cases a with
      | nil =>
        exact Or.inl ⟨b, by simpa using hab⟩
      | cons x a =>
        rw [List.cons_append, List.cons_append] at hab
        obtain ⟨rfl, h2⟩ := List.cons.inj hab
        exact Or.inr ⟨a, b, h2⟩

/-- The character-wise part of `str::to_lowercase`: every character is
mapped by `charToLower` independently of context.  On sigma-free
strings `toLowercase` coincides with it. -/
def charwiseLower : List Char → List Char
  | [] => []
  | c :: rest => charToLower c ++ charwiseLower rest

/-- `charwiseLower` is a string homomorphism. -/
theorem charwiseLower_append (a b : List Char) :
    charwiseLower (a ++ b) = charwiseLower a ++ charwiseLower b := by
  induction a with
  | nil => rfl
  | cons c a ih => simp [charwiseLower, ih, List.append_assoc]

/-- On strings without a capital sigma, the sigma branch of
`toLowercaseAux` never fires, so the scanned prefix is irrelevant and
the result is the character-wise lowercase. -/
theorem toLowercaseAux_no_sigma (s : List Char) (h : 'Σ' ∉ s) :
    ∀ prevRev, toLowercaseAux prevRev s = charwiseLower s := by
  induction s with
  | nil => intro prevRev; rfl
  | cons c rest ih =>
    intro prevRev
    have hc : ¬ (c = 'Σ') := fun hx => h (hx ▸ List.mem_cons_self c rest)
    have h' : 'Σ' ∉ rest := fun hm => h (List.mem_cons_of_mem c hm)
    simp only [toLowercaseAux, if_neg hc, ih h' (c :: prevRev), charwiseLower]

/-- On strings without a capital sigma, `toLowercase` is the
character-wise lowercase map. -/
theorem toLowercase_no_sigma (s : List Char) (h : 'Σ' ∉ s) :
    toLowercase s = charwiseLower s :=
  toLowercaseAux_no_sigma s h []

/-- Substring containment is preserved by the character-wise lowercase
homomorphism (this is exactly what the context-sensitive sigma rule
breaks). -/
theorem containsStr_charwiseLower (hay needle : List Char)
    (h : containsStr hay needle = true) :
    containsStr (charwiseLower hay) (charwiseLower needle) = true := by
  obtain ⟨a, b, rfl⟩ := (containsStr_iff hay needle).mp h
  refine (containsStr_iff _ _).mpr ⟨charwiseLower a, charwiseLower b, ?_⟩
  rw [charwiseLower_append, charwiseLower_append]

/-- Filtering the same list by a predicate that is implied, on the
list's members, by another yields a sublist of the other filter. -/
theorem filter_sublist_filter_of_mem {α : Type} {p q : α → Bool}
    (l : List α) (h : ∀ a ∈ l, p a = true → q a = true) :
    List.Sublist (l.filter p) (l.filter q) := by
  induction l with
  | nil => simp
  | cons a l ih =>
    have ih' := ih fun x hx => h x (List.mem_cons_of_mem a hx)
    by_cases hp : p a = true
    · rw [List.filter_cons_of_pos hp,
        List.filter_cons_of_pos (h a (List.mem_cons_self a l) hp)]
      exact ih'.cons_cons a
    · rw [List.filter_cons_of_neg hp]
      by_cases hq : q a = true
      · rw [List.filter_cons_of_pos hq]
        exact List.sublist_cons_of_sublist a ih'
      · rw [List.filter_cons_of_neg hq]
        exact ih'

/-- Every character of every line produced by `rustLines` occurs in the
original content. -/
theorem rustLines_chars (s : List Char) :
    ∀ l ∈ rustLines s, ∀ c ∈ l, c ∈ s := by
  induction s using rustLines.induct with
  | case1 =>
    intro l hl
    simp [rustLines] at hl
  | case2 rest ih =>
    intro l hl c hc
    simp only [rustLines, List.mem_cons] at hl
    rcases hl with rfl | hl
    · exact absurd hc (List.not_mem_nil c)
    · exact List.mem_cons_of_mem _ (List.mem_cons_of_mem _ (ih l hl c hc))
  | case3 rest ih =>
    intro l hl c hc
    simp only [rustLines, List.mem_cons] at hl
    rcases hl with rfl | hl
    · exact absurd hc (List.not_mem_nil c)
    · exact List.mem_cons_of_mem _ (ih l hl c hc)
  | case4 c0 rest h1 h2 hnil ih =>
    intro l hl c hc
    rw [rustLines_cons_ne c0 rest h1 h2, hnil] at hl
    simp only [List.mem_singleton] at hl
    subst hl
    simp only [List.mem_singleton] at hc
    subst hc
    exact List.mem_cons_self _ _
  | case5 c0 rest h1 h2 l0 ls hcons ih =>
    intro l hl c hc
    rw [rustLines_cons_ne c0 rest h1 h2, hcons] at hl
    rcases List.mem_cons.mp hl with rfl | hl
    · rcases List.mem_cons.mp hc with rfl | hc'
      · exact List.mem_cons_self _ _
      · exact List.mem_cons_of_mem _
          (ih l0 (hcons ▸ List.mem_cons_self l0 ls) c hc')
    · exact List.mem_cons_of_mem _
        (ih l (hcons ▸ List.mem_cons_of_mem l0 hl) c hc)

/-- The indices produced by `List.enum` are strictly increasing. -/
theorem enum_pairwise {α : Type} (l : List α) :
    l.enum.Pairwise fun a b => a.1 < b.1 := by
  have h1 : (l.enum.map Prod.fst).Pairwise (· < ·) := by
    rw [List.enum_map_fst]
    exact List.pairwise_lt_range _
  exact List.pairwise_map.mp h1

/-- Whenever `Config.new` succeeds, the `case_insensitive` field is the
`is_err` of the environment lookup. -/
theorem config_new_ok_case_insensitive (args : List (List Char))
    (env : EnvVarResult) (cfg : Config)
    (h : Config.new args env = .ok cfg) :
    cfg.case_insensitive = env.isErr := by
  unfold Config.new at h
  split at h
  · exact absurd h (by simp)
  · split at h
    · exact absurd h (by simp)
    · rw [← Except.ok.inj h]

/-! ## Claim theorems -/

/-- Claim C2: `Config::new` on an argument sequence whose element 0 is
the program name fails with the missing-query error when no further
argument follows, fails with the missing-filename error when exactly one
follows, and with two or more following arguments succeeds, binding
element 1 to `query` and element 2 to `filename` while silently
ignoring all further elements. -/
theorem Config.new_argument_cases (a0 q f : List Char)
    (rest : List (List Char)) (env : EnvVarResult) :
    Config.new [a0] env = .error .MissingQuery
    ∧ Config.new [a0, q] env = .error .MissingFilename
    ∧ Config.new (a0 :: q :: f :: rest) env =
        .ok { query := q, filename := f, case_insensitive := env.isErr } :=
  ⟨rfl, rfl, rfl⟩

/-- Claim C10: on the completely empty argument sequence (no program
name in position 0), `Config.new` is defined (the embedding is a total
function, mirroring the panic-free iterator code) and returns the
missing-query error: the skip of the absent program name consumes
nothing and the query lookup fails first. -/
theorem config_new_empty_args (env : EnvVarResult) :
    Config.new [] env = .error .MissingQuery :=
  rfl

/-- Claim C7: for every set/unset state of the `CASE_INSENSITIVE`
environment variable, the `case_insensitive` field of the configuration
produced by `Config.new` is true iff the variable is unset or
unreadable; its value when set is irrelevant. -/
theorem config_case_insensitive_iff_unset (args : List (List Char))
    (env : EnvVarResult) (cfg : Config)
    (h : Config.new args env = .ok cfg) :
    cfg.case_insensitive = true ↔
      (env = .notPresent ∨ env = .notUnicode) := by
  rw [config_new_ok_case_insensitive args env cfg h]
  cases env <;> simp [EnvVarResult.isErr]

/-- Witness for C7: a successful `Config.new` with the variable unset,
whose configuration indeed has `case_insensitive = true`. -/
theorem config_case_insensitive_iff_unset_witness :
    ({ query := "q".data, filename := "f".data,
       case_insensitive := true } : Config).case_insensitive = true :=
  (config_case_insensitive_iff_unset ["prog".data, "q".data, "f".data]
    .notPresent
    { query := "q".data, filename := "f".data, case_insensitive := true }
    rfl).mpr (Or.inl rfl)

/-- Claim C1 counterexample: with `CASE_INSENSITIVE` unset,
`Config::new` produces `case_insensitive = true`, and `run` then selects
the case-sensitive `search` — not `search_case_insensitive` as the claim
states.  At query `"RuSt"` and file content `"Rust"` the two searches
disagree, so `run`'s output witnesses the wrong selection. -/
theorem run_env_polarity_cex :
    Config.new ["prog".data, "RuSt".data, "file".data]
        EnvVarResult.notPresent =
      .ok { query := "RuSt".data, filename := "file".data,
            case_insensitive := true }
    ∧ run (fun _ => some ("Rust".data))
        { query := "RuSt".data, filename := "file".data,
          case_insensitive := true } =
      some (search ("RuSt".data) ("Rust".data))
    ∧ search ("RuSt".data) ("Rust".data) = []
    ∧ search_case_insensitive ("RuSt".data) ("Rust".data)
        = [(0, "Rust".data)]
    ∧ run (fun _ => some ("Rust".data))
        { query := "RuSt".data, filename := "file".data,
          case_insensitive := true } ≠
      some (search_case_insensitive ("RuSt".data) ("Rust".data)) :=
  ⟨rfl, rfl, by decide, by decide, by decide⟩

/-- Claim C1 (amended): `run` selects `search_case_insensitive` exactly
when `CASE_INSENSITIVE` is present (readable with any value), and the
case-sensitive `search` exactly when it is unset or unreadable. -/
theorem run_selects_by_env (args : List (List Char)) (env : EnvVarResult)
    (cfg : Config) (readToString : List Char → Option (List Char))
    (contents : List Char)
    (hc : Config.new args env = .ok cfg)
    (hr : readToString cfg.filename = some contents) :
    run readToString cfg =
      some (match env with
            | .ok _ => search_case_insensitive cfg.query contents
            | .notPresent => search cfg.query contents
            | .notUnicode => search cfg.query contents) := by
  unfold run
  rw [hr, config_new_ok_case_insensitive args env cfg hc]
  cases env <;> simp [EnvVarResult.isErr]

/-- Witness for the amended C1: with the variable set (to `"1"`), `run`
returns the `search_case_insensitive` results. -/
theorem run_selects_by_env_witness :
    run (fun _ => some ("Rust".data))
      { query := "RuSt".data, filename := "file".data,
        case_insensitive := false } =
      some (search_case_insensitive ("RuSt".data) ("Rust".data)) :=
  run_selects_by_env ["prog".data, "RuSt".data, "file".data]
    (.ok "1".data)
    { query := "RuSt".data, filename := "file".data,
      case_insensitive := false }
    (fun _ => some ("Rust".data)) ("Rust".data) rfl rfl

/-- Claim C3: for every query and content, the index sequence returned
by `search` and by `search_case_insensitive` is strictly increasing,
each index is below the number of lines, and each returned pair `(i, l)`
has `l` equal to the line at zero-based position `i` of the content's
line sequence. -/
theorem search_index_invariants (query contents : List Char) :
    ((search query contents).Pairwise fun a b => a.1 < b.1)
    ∧ (∀ p ∈ search query contents,
        p.1 < (rustLines contents).length
        ∧ (rustLines contents)[p.1]? = some p.2)
    ∧ ((search_case_insensitive query contents).Pairwise
        fun a b => a.1 < b.1)
    ∧ (∀ p ∈ search_case_insensitive query contents,
        p.1 < (rustLines contents).length
        ∧ (rustLines contents)[p.1]? = some p.2) := by
  refine ⟨(enum_pairwise _).filter _, ?_, (enum_pairwise _).filter _, ?_⟩ <;>
  · intro p hp
    have hm := List.mem_filter.mp hp
    have hg := List.mem_enum_iff_getElem?.mp hm.1
    exact ⟨(List.getElem?_eq_some.mp hg).1, hg⟩

/-- Witness for C3: the match of `"duct"` sits at index 1, which is
below the line count, and line 1 is exactly the matched text. -/
theorem search_index_invariants_witness :
    (1 : Nat) <
      (rustLines ("Rust \nsafe, fast, productive.\nPic three.".data)).length
    ∧ (rustLines
        ("Rust \nsafe, fast, productive.\nPic three.".data))[(1 : Nat)]? =
      some ("safe, fast, productive.".data) :=
  (search_index_invariants ("duct".data)
    ("Rust \nsafe, fast, productive.\nPic three.".data)).2.1
    (1, "safe, fast, productive.".data) (by decide)

/-- Claim C4: `search_case_insensitive` retains exactly the lines whose
lowercase form contains the lowercase form of the query, each pair
carrying the original non-lowercased line; in particular on query
`"RuSt"` and the three-line example content it returns exactly
`[(0, "Rust")]`. -/
theorem search_case_insensitive_spec :
    (∀ (query contents : List Char) (p : Nat × List Char),
        p ∈ search_case_insensitive query contents ↔
          (rustLines contents)[p.1]? = some p.2
          ∧ containsStr (toLowercase p.2) (toLowercase query) = true)
    ∧ search_case_insensitive ("RuSt".data)
        ("Rust\nsafe, fast, productive.\nPic three.".data)
        = [(0, "Rust".data)] := by
  constructor
  · intro query contents p
    constructor
    · intro hp
      have hm := List.mem_filter.mp hp
      exact ⟨List.mem_enum_iff_getElem?.mp hm.1, hm.2⟩
    · rintro ⟨hg, hcont⟩
      exact List.mem_filter.mpr ⟨List.mem_enum_iff_getElem?.mpr hg, hcont⟩
  · decide

/-- Claim C5: with the empty query, `search` returns every line of the
content paired with its zero-based index, and is empty exactly when the
content has no lines. -/
theorem search_empty_query (contents : List Char) :
    search [] contents = (rustLines contents).enum
    ∧ (search [] contents = [] ↔ rustLines contents = []) := by
  have h : search [] contents = (rustLines contents).enum :=
    List.filter_eq_self.mpr fun p _ => containsStr_nil p.2
  refine ⟨h, ?_⟩
  rw [h, List.enum_eq_nil]

/-- Claim C6: the line splitting used by both searches treats a trailing
terminator as producing no extra empty trailing line (for content ending
in a newline, the number of lines equals the number of `'\n'`
terminators) and treats a carriage-return-plus-newline pair as a single
line break. -/
theorem rustLines_terminator_spec :
    (∀ s : List Char, s.getLast? = some '\n' →
      (rustLines s).length = s.count '\n')
    ∧ (∀ a b : List Char, '\n' ∉ a →
      rustLines (a ++ '\r' :: '\n' :: b) = a :: rustLines b) :=
  ⟨rustLines_length_of_last_nl, rustLines_crlf⟩

/-- Witness for C6: `"ab\n\n"` ends in a newline and splits into exactly
two lines (its terminator count), and an explicit CRLF break yields the
line `"ab"` with the carriage return stripped. -/
theorem rustLines_terminator_spec_witness :
    (rustLines ("ab\n\n".data)).length = List.count '\n' ("ab\n\n".data)
    ∧ rustLines ("ab".data ++ '\r' :: '\n' :: "c".data) =
        "ab".data :: rustLines ("c".data) :=
  ⟨rustLines_terminator_spec.1 ("ab\n\n".data) (by decide),
   rustLines_terminator_spec.2 ("ab".data) ("c".data) (by decide)⟩

/-- Claim C8 counterexample: the case-sensitive result is not always a
subsequence of the case-insensitive one.  At query `"Σ"` and content
`"ΑΣ"`, `search` matches (the line contains `"Σ"` verbatim), but
lowercasing is context-sensitive: `toLowercase "ΑΣ" = "ας"` (word-final
sigma) does not contain `toLowercase "Σ" = "σ"`, so
`search_case_insensitive` returns nothing and the pair `(0, "ΑΣ")` is
lost. -/
theorem search_sublist_cex :
    search ("Σ".data) ("ΑΣ".data) = [(0, "ΑΣ".data)]
    ∧ search_case_insensitive ("Σ".data) ("ΑΣ".data) = []
    ∧ ¬ ((0, "ΑΣ".data) ∈ search_case_insensitive ("Σ".data) ("ΑΣ".data))
    ∧ ¬ List.Sublist (search ("Σ".data) ("ΑΣ".data))
        (search_case_insensitive ("Σ".data) ("ΑΣ".data)) :=
  ⟨by decide, by decide, by decide, by decide⟩

/-- Claim C8 (amended): for every query and content in which the
capital sigma `'Σ'` does not occur — so that the context-sensitive
`Final_Sigma` rule never fires and lowercasing is character-wise — every
pair returned by `search` is also returned by
`search_case_insensitive`, and the case-sensitive result is a
subsequence of the case-insensitive result. -/
theorem search_sublist_case_insensitive_no_sigma
    (query contents : List Char)
    (hq : 'Σ' ∉ query) (hcont : 'Σ' ∉ contents) :
    List.Sublist (search query contents)
      (search_case_insensitive query contents)
    ∧ ∀ p ∈ search query contents,
        p ∈ search_case_insensitive query contents := by
  have hsub : List.Sublist (search query contents)
      (search_case_insensitive query contents) := by
    apply filter_sublist_filter_of_mem
    intro p hp hcontains
    have hline : p.2 ∈ rustLines contents :=
      List.getElem?_mem (List.mem_enum_iff_getElem?.mp hp)
    have hs : 'Σ' ∉ p.2 :=
      fun hσ => hcont (rustLines_chars contents p.2 hline 'Σ' hσ)
    rw [toLowercase_no_sigma p.2 hs, toLowercase_no_sigma query hq]
    exact containsStr_charwiseLower p.2 query hcontains
  exact ⟨hsub, fun p hp => hsub.subset hp⟩

/-- Witness for the amended C8: the sigma-free pair found
case-sensitively for `"fast"` is also in the case-insensitive
results. -/
theorem search_sublist_no_sigma_witness :
    (1, "safe, fast, productive.".data) ∈
      search_case_insensitive ("fast".data)
        ("Rust \nsafe, fast, productive.\nPic three.".data) :=
  (search_sublist_case_insensitive_no_sigma ("fast".data)
    ("Rust \nsafe, fast, productive.\nPic three.".data)
    (by decide) (by decide)).2
    (1, "safe, fast, productive.".data) (by decide)

/-- Claim C9: two queries with the same lowercase form produce identical
`search_case_insensitive` results on every content. -/
theorem search_case_insensitive_query_case_irrelevant
    (q1 q2 contents : List Char)
    (h : toLowercase q1 = toLowercase q2) :
    search_case_insensitive q1 contents =
      search_case_insensitive q2 contents := by
  simp only [search_case_insensitive, h]

/-- Witness for C9: `"RUST"` and `"rust"` lowercase identically and give
the same results on a two-line content. -/
theorem search_case_insensitive_query_case_irrelevant_witness :
    search_case_insensitive ("RUST".data) ("Rust\nrust".data) =
      search_case_insensitive ("rust".data) ("Rust\nrust".data) :=
  search_case_insensitive_query_case_irrelevant
    ("RUST".data) ("rust".data) ("Rust\nrust".data) (by decide)

end RustGrep
